import Mathlib

/-!
Shallow embedding of the topology segmentation and resampling pipeline of
`src/parser.py` (OSM road-network parser).

Modelling conventions:
* Python dicts are association lists `List (Nat × α)` in insertion order; every
  dict the program builds has pairwise-distinct keys.
* Python sets of node ids are `List Nat`, used only through membership.
* Planar points `(x, y)` are complex numbers `x + y*I`, so that `Complex.abs`
  is exactly the Euclidean norm computed by `numpy.linalg.norm`.
* Fallible code (`IndexError`, numpy broadcast `ValueError`) is modelled with
  `Option` / `Except`.
-/

/-- Dictionary lookup for an inverted index: the value list stored at key `k`,
`[]` when the key is absent. -/
def lookupList : List (Nat × List Nat) → Nat → List Nat
  | [], _ => []
  | p :: rest, k => if p.1 = k then p.2 else lookupList rest k

@[simp] theorem lookupList_nil (k : Nat) : lookupList [] k = [] := rfl

theorem lookupList_cons (p : Nat × List Nat) (rest : List (Nat × List Nat)) (k : Nat) :
    lookupList (p :: rest) k = if p.1 = k then p.2 else lookupList rest k := rfl

/-- Append-or-create dict idiom `if key in d: d[key].append(v) else: d[key] = [v]`
used at parser.py lines 79-80 (inverted way index) and 191-192 / 198-199
(inverted segment index). -/
def invAppend (inv : List (Nat × List Nat)) (key val : Nat) : List (Nat × List Nat) :=
  if key ∈ inv.map Prod.fst then
    inv.map (fun p => if p.1 = key then (p.1, p.2 ++ [val]) else p)
  else
    inv ++ [(key, [val])]

theorem lookupList_eq_nil_of_not_mem (inv : List (Nat × List Nat)) (k : Nat)
    (h : k ∉ inv.map Prod.fst) : lookupList inv k = [] := by
  induction inv with
  | nil => rfl
  | cons x xs ih =>
      simp only [List.map_cons, List.mem_cons] at h
      push_neg at h
      rw [lookupList_cons, if_neg (fun hh => h.1 hh.symm)]
      exact ih h.2

theorem lookupList_mapAppendAt_ne (inv : List (Nat × List Nat)) (key val k : Nat)
    (hk : k ≠ key) :
    lookupList (inv.map (fun p => if p.1 = key then (p.1, p.2 ++ [val]) else p)) k =
      lookupList inv k := by
  induction inv with
  | nil => rfl
  | cons x xs ih =>
      rw [List.map_cons, lookupList_cons, lookupList_cons]
      by_cases hxkey : x.1 = key
      · rw [if_pos hxkey]
        have hxk : ¬ x.1 = k := fun h => hk (h ▸ hxkey)
        rw [if_neg hxk, if_neg hxk, ih]
      · rw [if_neg hxkey]
        by_cases hx : x.1 = k
        · rw [if_pos hx, if_pos hx]
        · rw [if_neg hx, if_neg hx, ih]

theorem lookupList_mapAppendAt_mem (inv : List (Nat × List Nat)) (key val : Nat)
    (hmem : key ∈ inv.map Prod.fst) :
    lookupList (inv.map (fun p => if p.1 = key then (p.1, p.2 ++ [val]) else p)) key =
      lookupList inv key ++ [val] := by
  induction inv with
  | nil => simp at hmem
  | cons x xs ih =>
      by_cases hxkey : x.1 = key
      · simp [List.map_cons, lookupList_cons, hxkey]
      · have h' : key ∈ xs.map Prod.fst := by
          simp only [List.map_cons, List.mem_cons] at hmem
          rcases hmem with h | h
          · exact absurd h.symm hxkey
          · exact h
        simp [List.map_cons, lookupList_cons, hxkey, ih h']

theorem lookupList_append_single_ne (inv : List (Nat × List Nat)) (key k : Nat)
    (l : List Nat) (hk : k ≠ key) :
    lookupList (inv ++ [(key, l)]) k = lookupList inv k := by
  induction inv with
  | nil =>
      rw [List.nil_append, lookupList_cons, if_neg (fun h => hk h.symm)]
  | cons x xs ih =>
      rw [List.cons_append, lookupList_cons, lookupList_cons]
      by_cases hx : x.1 = k
      · rw [if_pos hx, if_pos hx]
      · rw [if_neg hx, if_neg hx, ih]

theorem lookupList_append_single_self (inv : List (Nat × List Nat)) (key : Nat)
    (l : List Nat) (habs : key ∉ inv.map Prod.fst) :
    lookupList (inv ++ [(key, l)]) key = l := by
  induction inv with
  | nil => simp [lookupList_cons]
  | cons x xs ih =>
      simp only [List.map_cons, List.mem_cons] at habs
      push_neg at habs
      rw [List.cons_append, lookupList_cons, if_neg (fun h => habs.1 h.symm)]
      exact ih habs.2

/-- Characterisation of a single append-or-create step on the inverted index. -/
theorem lookupList_invAppend (inv : List (Nat × List Nat)) (key val k : Nat) :
    lookupList (invAppend inv key val) k =
      if k = key then lookupList inv k ++ [val] else lookupList inv k := by
  unfold invAppend
  by_cases hmem : key ∈ inv.map Prod.fst
  · rw [if_pos hmem]
    by_cases hk : k = key
    · subst hk
      rw [if_pos rfl]
      exact lookupList_mapAppendAt_mem inv k val hmem
    · rw [if_neg hk]
      exact lookupList_mapAppendAt_ne inv key val k hk
  · rw [if_neg hmem]
    by_cases hk : k = key
    · subst hk
      rw [if_pos rfl, lookupList_append_single_self inv k [val] hmem,
          lookupList_eq_nil_of_not_mem inv k hmem]
      rfl
    · rw [if_neg hk]
      exact lookupList_append_single_ne inv key k [val] hk

theorem map_fst_invAppend (inv : List (Nat × List Nat)) (key val : Nat) :
    (invAppend inv key val).map Prod.fst =
      if key ∈ inv.map Prod.fst then inv.map Prod.fst
      else inv.map Prod.fst ++ [key] := by
  unfold invAppend
  by_cases hmem : key ∈ inv.map Prod.fst
  · rw [if_pos hmem, if_pos hmem, List.map_map]
    congr 1
    funext p
    by_cases h : p.1 = key <;> simp [h]
  · rw [if_neg hmem, if_neg hmem]
    simp

theorem nodup_fst_invAppend (inv : List (Nat × List Nat)) (key val : Nat)
    (h : (inv.map Prod.fst).Nodup) : ((invAppend inv key val).map Prod.fst).Nodup := by
  rw [map_fst_invAppend]
  by_cases hmem : key ∈ inv.map Prod.fst
  · simpa [hmem] using h
  · simp only [hmem, if_false]
    refine List.nodup_append.2 ⟨h, List.nodup_singleton _, ?_⟩
    intro a ha hb
    rw [List.mem_singleton] at hb
    subst hb
    exact hmem ha

/-- The inverted-way-index construction of `parse_ways` (parser.py lines 78-80):
for each kept way, in scan order, append its id to the index entry of every
node occurrence of the way.  XML extraction and the street-type filter are
outside the model; `ways` is the list of kept `(wayid, node list)` pairs. -/
def buildInvWays (ways : List (Nat × List Nat)) : List (Nat × List Nat) :=
  ways.foldl (fun inv wp => wp.2.foldl (fun inv node => invAppend inv node wp.1) inv) []

/-- Number of occurrences of node `n` summed over all ways' node lists. -/
def totalOcc (ways : List (Nat × List Nat)) (n : Nat) : Nat :=
  (ways.map (fun wp => wp.2.count n)).sum

theorem lookupList_foldl_invAppend_nodes (wid : Nat) (nodes : List Nat)
    (inv : List (Nat × List Nat)) (n : Nat) :
    (lookupList (nodes.foldl (fun inv node => invAppend inv node wid) inv) n).length =
      (lookupList inv n).length + nodes.count n := by
  induction nodes generalizing inv with
  | nil => simp
  | cons a rest ih =>
      rw [List.foldl_cons, ih, lookupList_invAppend]
      by_cases h : n = a
      · subst h
        simp [List.count_cons]
        omega
      · have : ¬ a = n := fun hh => h hh.symm
        simp [h, List.count_cons, this]

theorem lookupList_buildInvWays_aux (ways : List (Nat × List Nat))
    (inv : List (Nat × List Nat)) (n : Nat) :
    (lookupList (ways.foldl
        (fun inv wp => wp.2.foldl (fun inv node => invAppend inv node wp.1) inv) inv) n).length
      = (lookupList inv n).length + totalOcc ways n := by
  induction ways generalizing inv with
  | nil => simp [totalOcc]
  | cons w rest ih =>
      rw [List.foldl_cons, ih, lookupList_foldl_invAppend_nodes]
      simp [totalOcc]
      omega

/-- Entry lengths of the inverted way index count node occurrences over all ways. -/
theorem lookupList_buildInvWays (ways : List (Nat × List Nat)) (n : Nat) :
    (lookupList (buildInvWays ways) n).length = totalOcc ways n := by
  unfold buildInvWays
  rw [lookupList_buildInvWays_aux]
  simp

theorem nodup_fst_foldl_invAppend (wid : Nat) (nodes : List Nat)
    (inv : List (Nat × List Nat)) (h : (inv.map Prod.fst).Nodup) :
    (((nodes.foldl (fun inv node => invAppend inv node wid) inv)).map Prod.fst).Nodup := by
  induction nodes generalizing inv with
  | nil => simpa using h
  | cons a rest ih => exact ih _ (nodup_fst_invAppend _ _ _ h)

theorem nodup_fst_buildInvWays (ways : List (Nat × List Nat)) :
    ((buildInvWays ways).map Prod.fst).Nodup := by
  unfold buildInvWays
  generalize hinv : ([] : List (Nat × List Nat)) = inv
  have h0 : (inv.map Prod.fst).Nodup := by rw [← hinv]; simp
  clear hinv
  induction ways generalizing inv with
  | nil => simpa using h0
  | cons w rest ih => exact ih _ (nodup_fst_foldl_invAppend _ _ _ h0)

/-- get_crossings (parser.py lines 104-119): the node ids whose inverted-way-index
entry lists more than one way id.  The Python set is modelled as the list of such
keys, used through membership only. -/
def get_crossings (invways : List (Nat × List Nat)) : List Nat :=
  (invways.filter (fun p => decide (1 < p.2.length))).map Prod.fst

theorem mem_get_crossings (invways : List (Nat × List Nat)) (n : Nat)
    (h : (invways.map Prod.fst).Nodup) :
    n ∈ get_crossings invways ↔ 1 < (lookupList invways n).length := by
  induction invways with
  | nil => simp [get_crossings]
  | cons p rest ih =>
      simp only [List.map_cons, List.nodup_cons] at h
      by_cases hp : p.1 = n
      · subst hp
        have hlook : lookupList (p :: rest) p.1 = p.2 := by simp [lookupList_cons]
        rw [hlook]
        constructor
        · intro hmem
          simp only [get_crossings, List.filter_cons] at hmem
          by_cases hlen : 1 < p.2.length
          · exact hlen
          · rw [if_neg (by simpa using hlen)] at hmem
            exfalso
            have : p.1 ∈ (rest.filter (fun q => decide (1 < q.2.length))).map Prod.fst := hmem
            have : p.1 ∈ rest.map Prod.fst := by
              rcases List.mem_map.1 this with ⟨q, hq, hq1⟩
              exact List.mem_map.2 ⟨q, List.mem_of_mem_filter hq, hq1⟩
            exact h.1 this
        · intro hlen
          simp only [get_crossings, List.filter_cons, decide_eq_true_eq]
          rw [if_pos (by simpa using hlen)]
          simp
      · have hlook : lookupList (p :: rest) n = lookupList rest n := by
          simp [lookupList_cons, hp]
        rw [hlook, ← ih h.2]
        simp only [get_crossings, List.filter_cons, decide_eq_true_eq]
        by_cases hlen : 1 < p.2.length
        · rw [if_pos (by simpa using hlen)]
          simp only [List.map_cons, List.mem_cons]
          constructor
          · rintro (h1 | h2)
            · exact absurd h1.symm hp
            · exact h2
          · exact Or.inr
        · rw [if_neg (by simpa using hlen)]

/-- filter_out_orphan_nodes (parser.py lines 122-157).  Fast path: if the number
of inverted-index entries equals the number of coordinate-store entries, return
both stores unchanged.  Slow path: keep in each way only nodes present in the
coordinate store, and drop inverted-index entries whose key is absent from it.
Generic in the coordinate payload, which the function never reads. -/
def filter_out_orphan_nodes {α : Type} (ways invways : List (Nat × List Nat))
    (nodeshash : List (Nat × α)) :
    List (Nat × List Nat) × List (Nat × List Nat) :=
  if invways.length = nodeshash.length then (ways, invways)
  else
    let validnodes := nodeshash.map Prod.fst
    (ways.map (fun wp => (wp.1, wp.2.filter (fun n => decide (n ∈ validnodes)))),
     invways.filter (fun p => decide (p.1 ∈ validnodes)))

/-- Registration of one closed segment into the inverted segment index
(parser.py lines 190-192 and 197-199): append the segment id to the entry of
every node occurrence of the segment. -/
def registerSeg (inv : List (Nat × List Nat)) (sid : Nat) (seg : List Nat) :
    List (Nat × List Nat) :=
  seg.foldl (fun inv snode => invAppend inv snode sid) inv

/-- Inner scan of get_segments' splitting branch (parser.py lines 185-194):
walk the way's nodes accumulating a working buffer; when the current node is a
crossing and the buffer (node included) holds more than one node, close the
buffer as segment `sid`, register it, and restart the buffer from this node.
Returns the final buffer together with the threaded counter, segment dict and
inverted segment index. -/
def segScan (crossings : List Nat) :
    List Nat → List Nat → Nat → List (Nat × List Nat) → List (Nat × List Nat) →
    List Nat × Nat × List (Nat × List Nat) × List (Nat × List Nat)
  | [], segment, sid, segments, invsegments => (segment, sid, segments, invsegments)
  | node :: rest, segment, sid, segments, invsegments =>
    if node ∈ crossings ∧ 1 < (segment ++ [node]).length then
      segScan crossings rest [node] (sid + 1) (segments ++ [(sid, segment ++ [node])])
        (registerSeg invsegments sid (segment ++ [node]))
    else
      segScan crossings rest (segment ++ [node]) sid segments invsegments

/-- Way loop of get_segments (parser.py lines 178-200).  A way none of whose
nodes is a crossing becomes a single segment and is NOT registered in the
inverted segment index (the `continue` at line 182 skips registration); any
other way is scanned by `segScan` and its final buffer is closed and
registered as a last segment. -/
def segWays (crossings : List Nat) :
    List (Nat × List Nat) → Nat → List (Nat × List Nat) → List (Nat × List Nat) →
    Nat × List (Nat × List Nat) × List (Nat × List Nat)
  | [], sid, segments, invsegments => (sid, segments, invsegments)
  | (_, nodes) :: rest, sid, segments, invsegments =>
    if ∀ n ∈ nodes, n ∉ crossings then
      segWays crossings rest (sid + 1) (segments ++ [(sid, nodes)]) invsegments
    else
      match segScan crossings nodes [] sid segments invsegments with
      | (segment, sid2, segments2, invsegments2) =>
          segWays crossings rest (sid2 + 1) (segments2 ++ [(sid2, segment)])
            (registerSeg invsegments2 sid2 segment)

/-- get_segments (parser.py lines 160-203): split every way at its crossings
into maximal crossing-free segments, with globally sequential segment ids
starting at 0, returning the segment dict and the inverted segment index. -/
def get_segments (ways : List (Nat × List Nat)) (crossings : List Nat) :
    List (Nat × List Nat) × List (Nat × List Nat) :=
  (segWays crossings ways 0 [] []).2

/-- Specification-level restatement of the splitting scan: the list of segments
(closed ones followed by the final buffer) that the scan of one way produces. -/
def splitLoop (crossings : List Nat) (segment : List Nat) : List Nat → List (List Nat)
  | [] => [segment]
  | node :: rest =>
    if node ∈ crossings ∧ 1 < (segment ++ [node]).length then
      (segment ++ [node]) :: splitLoop crossings [node] rest
    else
      splitLoop crossings (segment ++ [node]) rest

/-- Segments produced from a single way: the whole way when it touches no
crossing, otherwise the splitting scan started from an empty buffer. -/
def waySegments (crossings : List Nat) (nodes : List Nat) : List (List Nat) :=
  if ∀ n ∈ nodes, n ∉ crossings then [nodes] else splitLoop crossings [] nodes

/-- Pair a run of segments with sequential ids starting at `sid`. -/
def enumSegs (sid : Nat) : List (List Nat) → List (Nat × List Nat)
  | [] => []
  | s :: ss => (sid, s) :: enumSegs (sid + 1) ss

/-- Register a run of segments with sequential ids starting at `sid`. -/
def registerSegs (inv : List (Nat × List Nat)) (sid : Nat) :
    List (List Nat) → List (Nat × List Nat)
  | [] => inv
  | s :: ss => registerSegs (registerSeg inv sid s) (sid + 1) ss

/-- Specification-level restatement of the inverted segment index built by
get_segments: ways with no crossing are skipped (their fast path registers
nothing), the others register all their split segments. -/
def segWaysInv (crossings : List Nat) (inv : List (Nat × List Nat)) (sid : Nat) :
    List (Nat × List Nat) → List (Nat × List Nat)
  | [] => inv
  | (_, nodes) :: rest =>
    if ∀ n ∈ nodes, n ∉ crossings then
      segWaysInv crossings inv (sid + 1) rest
    else
      segWaysInv crossings (registerSegs inv sid (splitLoop crossings [] nodes))
        (sid + (splitLoop crossings [] nodes).length) rest

/-- The id-tagged segments that get_segments actually registers into the
inverted segment index: exactly those of the ways processed through the
splitting branch. -/
def regSegsFrom (crossings : List Nat) (sid : Nat) :
    List (Nat × List Nat) → List (Nat × List Nat)
  | [] => []
  | (_, nodes) :: rest =>
    if ∀ n ∈ nodes, n ∉ crossings then
      regSegsFrom crossings (sid + 1) rest
    else
      enumSegs sid (splitLoop crossings [] nodes) ++
        regSegsFrom crossings (sid + (splitLoop crossings [] nodes).length) rest

/-- Concatenation of a segment run counting the shared boundary node once at
each join: every segment after the first drops its leading (shared) node. -/
def joinSegs : List (List Nat) → List Nat
  | [] => []
  | s :: ss => s ++ (ss.map (fun t => t.drop 1)).flatten

/-- All segments produced by get_segments, way by way, in production order. -/
def allSegs (crossings : List Nat) (ways : List (Nat × List Nat)) : List (List Nat) :=
  (ways.map (fun p => waySegments crossings p.2)).flatten

theorem enumSegs_length (sid : Nat) (L : List (List Nat)) :
    (enumSegs sid L).length = L.length := by
  induction L generalizing sid with
  | nil => rfl
  | cons s ss ih => simp [enumSegs, ih]

theorem enumSegs_append (sid : Nat) (a b : List (List Nat)) :
    enumSegs sid (a ++ b) = enumSegs sid a ++ enumSegs (sid + a.length) b := by
  induction a generalizing sid with
  | nil => simp [enumSegs]
  | cons s ss ih =>
      rw [List.cons_append]
      show (sid, s) :: enumSegs (sid + 1) (ss ++ b) = _
      rw [ih (sid + 1)]
      have h : sid + 1 + ss.length = sid + (s :: ss).length := by simp; omega
      rw [h]
      rfl

theorem enumSegs_map_snd (sid : Nat) (L : List (List Nat)) :
    (enumSegs sid L).map Prod.snd = L := by
  induction L generalizing sid with
  | nil => rfl
  | cons s ss ih => simp [enumSegs, ih]

theorem enumSegs_map_fst (sid : Nat) (L : List (List Nat)) :
    (enumSegs sid L).map Prod.fst = List.range' sid L.length := by
  induction L generalizing sid with
  | nil => rfl
  | cons s ss ih => simp [enumSegs, ih, List.range'_succ]

/-- The splitting scan agrees with its structured restatement: closing the final
buffer after `segScan` yields exactly the enumeration and registration of the
segments listed by `splitLoop`. -/
theorem segScan_eq (crossings : List Nat) (nodes : List Nat) :
    ∀ (segment : List Nat) (sid : Nat) (segments inv : List (Nat × List Nat)),
    (match segScan crossings nodes segment sid segments inv with
     | (segf, sidf, segsf, invf) =>
        (sidf + 1, segsf ++ [(sidf, segf)], registerSeg invf sidf segf))
    = (sid + (splitLoop crossings segment nodes).length,
       segments ++ enumSegs sid (splitLoop crossings segment nodes),
       registerSegs inv sid (splitLoop crossings segment nodes)) := by
  induction nodes with
  | nil =>
      intro segment sid segments inv
      simp [segScan, splitLoop, enumSegs, registerSegs]
  | cons node rest ih =>
      intro segment sid segments inv
      by_cases h : node ∈ crossings ∧ 1 < (segment ++ [node]).length
      · rw [segScan, if_pos h, splitLoop, if_pos h]
        rw [ih [node] (sid + 1) (segments ++ [(sid, segment ++ [node])])
              (registerSeg inv sid (segment ++ [node]))]
        simp only [List.length_cons, enumSegs, registerSegs, List.append_assoc,
          List.singleton_append, Prod.mk.injEq]
        exact ⟨by omega, trivial⟩
      · rw [segScan, if_neg h, splitLoop, if_neg h]
        exact ih (segment ++ [node]) sid segments inv

/-- The way loop agrees with its structured restatement. -/
theorem segWays_eq (crossings : List Nat) :
    ∀ (ways : List (Nat × List Nat)) (sid : Nat) (segments inv : List (Nat × List Nat)),
    segWays crossings ways sid segments inv =
      (sid + (allSegs crossings ways).length,
       segments ++ enumSegs sid (allSegs crossings ways),
       segWaysInv crossings inv sid ways) := by
  intro ways
  induction ways with
  | nil =>
      intro sid segments inv
      simp [segWays, allSegs, enumSegs, segWaysInv]
  | cons wp rest ih =>
      intro sid segments inv
      obtain ⟨w, nodes⟩ := wp
      by_cases h : ∀ n ∈ nodes, n ∉ crossings
      · rw [segWays, if_pos h, ih]
        have hways : waySegments crossings nodes = [nodes] := by
          rw [waySegments, if_pos h]
        simp only [allSegs, List.map_cons, List.flatten_cons, hways, segWaysInv, if_pos h,
          List.length_append, List.length_cons, List.length_nil, Prod.mk.injEq,
          enumSegs_append]
        refine ⟨by omega, ?_, trivial⟩
        simp [enumSegs, List.append_assoc]
      · rw [segWays, if_neg h]
        rcases hscan : segScan crossings nodes [] sid segments inv with
          ⟨segf, sidf, segsf, invf⟩
        have hkey := segScan_eq crossings nodes [] sid segments inv
        rw [hscan] at hkey
        simp only [Prod.mk.injEq] at hkey
        obtain ⟨h1, h2, h3⟩ := hkey
        show segWays crossings rest (sidf + 1) (segsf ++ [(sidf, segf)])
            (registerSeg invf sidf segf) = _
        rw [ih, h1, h2, h3]
        have hways : waySegments crossings nodes = splitLoop crossings [] nodes := by
          rw [waySegments, if_neg h]
        simp only [allSegs, List.map_cons, List.flatten_cons, hways, segWaysInv, if_neg h,
          Prod.mk.injEq, enumSegs_append, List.length_append]
        refine ⟨by omega, ?_, trivial⟩
        simp [List.append_assoc]

/-- get_segments in terms of the structured restatements. -/
theorem get_segments_eq (ways : List (Nat × List Nat)) (crossings : List Nat) :
    get_segments ways crossings =
      (enumSegs 0 (allSegs crossings ways), segWaysInv crossings [] 0 ways) := by
  rw [get_segments, segWays_eq]
  rfl

theorem splitLoop_head (crossings : List Nat) (nodes : List Nat) :
    ∀ segment, ∃ t L2, splitLoop crossings segment nodes = (segment ++ t) :: L2 := by
  induction nodes with
  | nil => intro segment; exact ⟨[], [], by simp [splitLoop]⟩
  | cons node rest ih =>
      intro segment
      by_cases h : node ∈ crossings ∧ 1 < (segment ++ [node]).length
      · exact ⟨[node], splitLoop crossings [node] rest, by rw [splitLoop, if_pos h]⟩
      · obtain ⟨t, L2, hL⟩ := ih (segment ++ [node])
        exact ⟨[node] ++ t, L2, by rw [splitLoop, if_neg h, hL, List.append_assoc]⟩

/-- Concatenating the segments of one splitting scan, dropping the shared
leading node of every segment after the first, recovers buffer ++ input. -/
theorem joinSegs_splitLoop (crossings : List Nat) (nodes : List Nat) :
    ∀ segment, joinSegs (splitLoop crossings segment nodes) = segment ++ nodes := by
  induction nodes with
  | nil => intro segment; simp [splitLoop, joinSegs]
  | cons node rest ih =>
      intro segment
      by_cases h : node ∈ crossings ∧ 1 < (segment ++ [node]).length
      · rw [splitLoop, if_pos h]
        obtain ⟨t, L2, hL⟩ := splitLoop_head crossings rest [node]
        have hih := ih [node]
        rw [hL] at hih
        rw [hL]
        simp only [joinSegs, List.map_cons, List.flatten_cons, List.singleton_append,
          List.cons_append, List.drop_succ_cons, List.drop_zero] at hih ⊢
        have htail : t ++ (List.map (fun t => t.drop 1) L2).flatten = rest := by
          simpa using congrArg List.tail hih
        rw [← htail]
        simp [List.append_assoc]
      · rw [splitLoop, if_neg h, ih (segment ++ [node])]
        simp

/-- Consecutive segments of one splitting scan share their boundary node: each
segment's last node is the next segment's first node. -/
theorem splitLoop_chain (crossings : List Nat) (nodes : List Nat) :
    ∀ segment, List.Chain' (fun a b => a.getLast? = b.head?) (splitLoop crossings segment nodes) := by
  induction nodes with
  | nil => intro segment; simp [splitLoop]
  | cons node rest ih =>
      intro segment
      by_cases h : node ∈ crossings ∧ 1 < (segment ++ [node]).length
      · rw [splitLoop, if_pos h]
        refine List.chain'_cons'.mpr ⟨?_, ih [node]⟩
        intro b hb
        obtain ⟨t, L2, hL⟩ := splitLoop_head crossings rest [node]
        rw [hL] at hb
        simp only [List.head?_cons, Option.mem_def, Option.some.injEq] at hb
        subst hb
        simp [List.getLast?_append, List.singleton_append]
      · rw [splitLoop, if_neg h]
        exact ih (segment ++ [node])

/-- Entry of the inverted segment index after registering one segment: the
segment id is appended once per occurrence of the node in the segment. -/
theorem lookupList_registerSeg (seg : List Nat) :
    ∀ (inv : List (Nat × List Nat)) (sid n : Nat),
    lookupList (registerSeg inv sid seg) n =
      lookupList inv n ++ List.replicate (seg.count n) sid := by
  induction seg with
  | nil => intro inv sid n; simp [registerSeg]
  | cons s rest ih =>
      intro inv sid n
      have hstep : registerSeg inv sid (s :: rest) =
          registerSeg (invAppend inv s sid) sid rest := rfl
      rw [hstep, ih, lookupList_invAppend]
      by_cases h : n = s
      · subst h
        rw [if_pos rfl, List.count_cons_self, List.replicate_succ, List.append_assoc]
        rfl
      · rw [if_neg h, List.count_cons_of_ne h]

theorem count_lookupList_registerSegs (L : List (List Nat)) :
    ∀ (inv : List (Nat × List Nat)) (sid s n : Nat),
    List.count s (lookupList (registerSegs inv sid L) n) =
      List.count s (lookupList inv n) +
        ((enumSegs sid L).map (fun p => if p.1 = s then p.2.count n else 0)).sum := by
  induction L with
  | nil => intro inv sid s n; simp [registerSegs, enumSegs]
  | cons a as ih =>
      intro inv sid s n
      rw [registerSegs, ih, lookupList_registerSeg, List.count_append]
      simp only [List.count_replicate, enumSegs, List.map_cons, List.sum_cons, beq_iff_eq]
      by_cases h : s = sid
      · subst h
        rw [Nat.add_assoc]
      · rw [Nat.add_assoc]

theorem mem_enumSegs_bounds (L : List (List Nat)) :
    ∀ (sid : Nat) (p : Nat × List Nat), p ∈ enumSegs sid L →
      sid ≤ p.1 ∧ p.1 < sid + L.length := by
  induction L with
  | nil => intro sid p hp; simp [enumSegs] at hp
  | cons a as ih =>
      intro sid p hp
      rw [enumSegs, List.mem_cons] at hp
      rcases hp with hp | hp
      · subst hp; simp
      · have := ih (sid + 1) p hp
        simp only [List.length_cons]
        omega

theorem pairwise_enumSegs (L : List (List Nat)) :
    ∀ sid, (enumSegs sid L).Pairwise (fun p q => p.1 < q.1) := by
  induction L with
  | nil => intro sid; simp [enumSegs]
  | cons a as ih =>
      intro sid
      rw [enumSegs]
      refine List.pairwise_cons.mpr ⟨?_, ih (sid + 1)⟩
      intro q hq
      have := mem_enumSegs_bounds as (sid + 1) q hq
      simp only
      omega

theorem mem_regSegsFrom_lb (crossings : List Nat) (ways : List (Nat × List Nat)) :
    ∀ (sid : Nat) (p : Nat × List Nat), p ∈ regSegsFrom crossings sid ways → sid ≤ p.1 := by
  induction ways with
  | nil => intro sid p hp; simp [regSegsFrom] at hp
  | cons wp rest ih =>
      intro sid p hp
      obtain ⟨w, nodes⟩ := wp
      rw [regSegsFrom] at hp
      by_cases h : ∀ n ∈ nodes, n ∉ crossings
      · rw [if_pos h] at hp
        have := ih (sid + 1) p hp
        omega
      · rw [if_neg h, List.mem_append] at hp
        rcases hp with hp | hp
        · exact (mem_enumSegs_bounds _ sid p hp).1
        · have := ih _ p hp
          omega

theorem pairwise_regSegsFrom (crossings : List Nat) (ways : List (Nat × List Nat)) :
    ∀ sid, (regSegsFrom crossings sid ways).Pairwise (fun p q => p.1 < q.1) := by
  induction ways with
  | nil => intro sid; simp [regSegsFrom]
  | cons wp rest ih =>
      intro sid
      obtain ⟨w, nodes⟩ := wp
      rw [regSegsFrom]
      by_cases h : ∀ n ∈ nodes, n ∉ crossings
      · rw [if_pos h]
        exact ih (sid + 1)
      · rw [if_neg h]
        refine List.pairwise_append.mpr ⟨pairwise_enumSegs _ sid, ih _, ?_⟩
        intro p hp q hq
        have h1 := (mem_enumSegs_bounds _ sid p hp).2
        have h2 := mem_regSegsFrom_lb crossings rest _ q hq
        omega

theorem count_lookupList_segWaysInv (crossings : List Nat) (ways : List (Nat × List Nat)) :
    ∀ (inv : List (Nat × List Nat)) (sid s n : Nat),
    List.count s (lookupList (segWaysInv crossings inv sid ways) n) =
      List.count s (lookupList inv n) +
        ((regSegsFrom crossings sid ways).map (fun p => if p.1 = s then p.2.count n else 0)).sum := by
  induction ways with
  | nil => intro inv sid s n; simp [segWaysInv, regSegsFrom]
  | cons wp rest ih =>
      intro inv sid s n
      obtain ⟨w, nodes⟩ := wp
      rw [segWaysInv, regSegsFrom]
      by_cases h : ∀ n ∈ nodes, n ∉ crossings
      · rw [if_pos h, if_pos h, ih]
      · rw [if_neg h, if_neg h, ih, count_lookupList_registerSegs]
        rw [List.map_append, List.sum_append]
        omega

theorem sum_pick_of_pairwise (s : Nat) (seg : List Nat) (n : Nat) :
    ∀ (L : List (Nat × List Nat)), L.Pairwise (fun p q => p.1 < q.1) →
      (s, seg) ∈ L →
      (L.map (fun p => if p.1 = s then p.2.count n else 0)).sum = seg.count n := by
  intro L
  induction L with
  | nil => intro _ hmem; simp at hmem
  | cons a as ih =>
      intro hpw hmem
      rw [List.pairwise_cons] at hpw
      rw [List.mem_cons] at hmem
      rcases hmem with hmem | hmem
      · subst hmem
        simp only [List.map_cons, List.sum_cons, if_pos rfl]
        have hzero : ((as.map (fun p => if p.1 = s then p.2.count n else 0)).sum) = 0 := by
          apply List.sum_eq_zero
          intro x hx
          rcases List.mem_map.1 hx with ⟨q, hq, hqx⟩
          have : s < q.1 := hpw.1 q hq
          rw [← hqx, if_neg (by omega)]
        rw [hzero]
        simp
      · have ha : a.1 < s := by
          have := hpw.1 _ hmem
          simpa using this
        simp only [List.map_cons, List.sum_cons, if_neg (by omega : ¬ a.1 = s)]
        rw [ih hpw.2 hmem]
        simp

/-- Synthetic interpolation chain (parser.py lines 231-235): starting from
`cur`, emit `n` points, each `epsilon • direc` further than the previous. -/
noncomputable def synthChain (direc : ℂ) (epsilon : ℝ) : ℂ → Nat → List ℂ
  | _, 0 => []
  | cur, n + 1 => (cur + epsilon • direc) :: synthChain direc epsilon (cur + epsilon • direc) n

/-- Loop body of evenly_space_one_segment (parser.py lines 219-236).  The
reference point `prevnode` is the previously visited true node's coordinate.
A hop shorter than epsilon is passed through unchanged; otherwise
`int(d / epsilon)` synthetic points are emitted along the unit direction
(`int` truncation equals `Nat.floor` for the nonnegative quotients arising
when `0 < epsilon ≤ d`), and the node's own coordinate is not emitted. -/
noncomputable def evenlySpaceAux (nodeshash : Nat → ℂ) (epsilon : ℝ) : ℂ → List Nat → List ℂ
  | _, [] => []
  | prevnode, nodeid :: rest =>
    if Complex.abs (nodeshash nodeid - prevnode) < epsilon then
      nodeshash nodeid :: evenlySpaceAux nodeshash epsilon (nodeshash nodeid) rest
    else
      synthChain ((Complex.abs (nodeshash nodeid - prevnode))⁻¹ • (nodeshash nodeid - prevnode))
          epsilon prevnode ⌊Complex.abs (nodeshash nodeid - prevnode) / epsilon⌋₊
        ++ evenlySpaceAux nodeshash epsilon (nodeshash nodeid) rest

/-- evenly_space_one_segment (parser.py lines 206-237): emit the first node's
coordinate, then walk the rest of the segment.  On an empty segment the Python
code evaluates `segment[0]` and raises IndexError, modelled by `none`. -/
noncomputable def evenly_space_one_segment (segment : List Nat) (nodeshash : Nat → ℂ)
    (epsilon : ℝ) : Option (List ℂ) :=
  match segment with
  | [] => none
  | first :: rest =>
      some (nodeshash first :: evenlySpaceAux nodeshash epsilon (nodeshash first) rest)

/-- Fixed output-buffer capacity (parser.py line 16). -/
def MAX_ARRAY_SZ : Nat := 1048576

/-- Write loop of evenly_space_segments (parser.py lines 253-260) over the
fixed `(MAX_ARRAY_SZ, 3)` numpy buffer.  A slice assignment
`points[idx:idx+n, 0:2] = coords` behaves as follows when `n = coords.length`:
if `idx + n ≤ MAX_ARRAY_SZ` the rows are written; otherwise the target slice
is clipped and numpy broadcasting raises ValueError — except when the source
has a single row (`n = 1`, hence `idx ≥ MAX_ARRAY_SZ` and an empty target
slice), which broadcasts as a silent no-op while `idx` still advances.  The
final `points[:idx, :]` returns exactly the rows actually written, which the
accumulator `acc` tracks. -/
noncomputable def evenlySpaceWrite (nodeshash : Nat → ℂ) (epsilon : ℝ) :
    List (Nat × List Nat) → Nat → List (ℂ × Nat) → Except String (List (ℂ × Nat))
  | [], _, acc => .ok acc
  | (sid, segment) :: rest, idx, acc =>
    match evenly_space_one_segment segment nodeshash epsilon with
    | none => .error "IndexError"
    | some coords =>
        if idx + coords.length ≤ MAX_ARRAY_SZ then
          evenlySpaceWrite nodeshash epsilon rest (idx + coords.length)
            (acc ++ coords.map (fun c => (c, sid)))
        else if coords.length = 1 then
          evenlySpaceWrite nodeshash epsilon rest (idx + coords.length) acc
        else .error "ValueError"

/-- evenly_space_segments (parser.py lines 240-262): resample every segment and
concatenate the points, each tagged with its segment id. -/
noncomputable def evenly_space_segments (segments : List (Nat × List Nat))
    (nodeshash : Nat → ℂ) (epsilon : ℝ) : Except String (List (ℂ × Nat)) :=
  evenlySpaceWrite nodeshash epsilon segments 0 []

/-- Total number of points the per-segment resampler produces over a batch. -/
noncomputable def totalPoints (segments : List (Nat × List Nat)) (nodeshash : Nat → ℂ)
    (epsilon : ℝ) : Nat :=
  (segments.map (fun p => ((evenly_space_one_segment p.2 nodeshash epsilon).getD []).length)).sum

theorem abs_inv_smul_self (z : ℂ) (h : z ≠ 0) :
    Complex.abs ((Complex.abs z)⁻¹ • z) = 1 := by
  rw [Complex.real_smul, map_mul, Complex.abs_ofReal,
    abs_of_nonneg (inv_nonneg.mpr (Complex.abs.nonneg z))]
  rw [inv_mul_cancel₀ (by simpa using h)]

theorem abs_smul_direc (direc : ℂ) (epsilon : ℝ) (hd : Complex.abs direc = 1)
    (he : 0 < epsilon) : Complex.abs (epsilon • direc) = epsilon := by
  rw [Complex.real_smul, map_mul, Complex.abs_ofReal, hd, mul_one, abs_of_pos he]

/-- Consecutive points of one synthetic interpolation chain, starting from its
reference point, are exactly epsilon apart. -/
theorem chain_synthChain (direc : ℂ) (epsilon : ℝ) (hd : Complex.abs direc = 1)
    (he : 0 < epsilon) :
    ∀ (cur : ℂ) (n : Nat),
      List.Chain' (fun a b => Complex.abs (b - a) = epsilon)
        (cur :: synthChain direc epsilon cur n) := by
  intro cur n
  induction n generalizing cur with
  | zero => simp [synthChain]
  | succ n ih =>
      rw [synthChain]
      refine List.chain'_cons.mpr ⟨?_, ih (cur + epsilon • direc)⟩
      rw [add_sub_cancel_left]
      exact abs_smul_direc direc epsilon hd he

theorem evenlySpaceWrite_cons (nodeshash : Nat → ℂ) (epsilon : ℝ) (sid : Nat)
    (segment : List Nat) (rest : List (Nat × List Nat)) (idx : Nat)
    (acc : List (ℂ × Nat)) :
    evenlySpaceWrite nodeshash epsilon ((sid, segment) :: rest) idx acc =
      match evenly_space_one_segment segment nodeshash epsilon with
      | none => .error "IndexError"
      | some coords =>
          if idx + coords.length ≤ MAX_ARRAY_SZ then
            evenlySpaceWrite nodeshash epsilon rest (idx + coords.length)
              (acc ++ coords.map (fun c => (c, sid)))
          else if coords.length = 1 then
            evenlySpaceWrite nodeshash epsilon rest (idx + coords.length) acc
          else .error "ValueError" := rfl

theorem totalPoints_cons (p : Nat × List Nat) (rest : List (Nat × List Nat))
    (nodeshash : Nat → ℂ) (epsilon : ℝ) :
    totalPoints (p :: rest) nodeshash epsilon =
      ((evenly_space_one_segment p.2 nodeshash epsilon).getD []).length +
        totalPoints rest nodeshash epsilon := by
  simp [totalPoints]

/-- Length invariant of the buffered write loop: a successful run returns
min(total points written so far + remaining, capacity) rows. -/
theorem evenlySpaceWrite_ok_length (nodeshash : Nat → ℂ) (epsilon : ℝ) :
    ∀ (segs : List (Nat × List Nat)) (idx : Nat) (acc l : List (ℂ × Nat)),
      acc.length = min idx MAX_ARRAY_SZ →
      evenlySpaceWrite nodeshash epsilon segs idx acc = .ok l →
      l.length = min (idx + totalPoints segs nodeshash epsilon) MAX_ARRAY_SZ := by
  intro segs
  induction segs with
  | nil =>
      intro idx acc l hacc hok
      rw [evenlySpaceWrite] at hok
      cases hok
      simp [totalPoints]
      omega
  | cons p rest ih =>
      intro idx acc l hacc hok
      obtain ⟨sid, segment⟩ := p
      rw [evenlySpaceWrite_cons] at hok
      cases hc : evenly_space_one_segment segment nodeshash epsilon with
      | none => rw [hc] at hok; cases hok
      | some coords =>
          rw [hc] at hok
          simp only [] at hok
          rw [totalPoints_cons]
          simp only [hc, Option.getD_some]
          by_cases h1 : idx + coords.length ≤ MAX_ARRAY_SZ
          · rw [if_pos h1] at hok
            have hlen : (acc ++ coords.map (fun c => (c, sid))).length =
                min (idx + coords.length) MAX_ARRAY_SZ := by
              simp only [List.length_append, List.length_map]
              omega
            have := ih (idx + coords.length) _ l hlen hok
            rw [this]
            congr 1
            omega
          · rw [if_neg h1] at hok
            by_cases h2 : coords.length = 1
            · rw [if_pos h2] at hok
              have hidx : MAX_ARRAY_SZ ≤ idx := by omega
              have hlen : acc.length = min (idx + coords.length) MAX_ARRAY_SZ := by omega
              have := ih (idx + coords.length) _ l hlen hok
              rw [this]
              congr 1
              omega
            · rw [if_neg h2] at hok
              cases hok

/-- A batch of single-node segments: every write either fits or is the silent
single-row broadcast no-op, so the run always succeeds and keeps exactly
min(batch size, remaining capacity) extra rows. -/
theorem evenlySpaceWrite_singleton_segs (nodeshash : Nat → ℂ) (epsilon : ℝ) :
    ∀ (L : List (Nat × List Nat)), (∀ p ∈ L, ∃ c, p.2 = [c]) →
    ∀ (idx : Nat) (acc : List (ℂ × Nat)),
      ∃ l, evenlySpaceWrite nodeshash epsilon L idx acc = .ok l ∧
        l.length = acc.length + min L.length (MAX_ARRAY_SZ - idx) := by
  intro L
  induction L with
  | nil =>
      intro _ idx acc
      exact ⟨acc, rfl, by simp⟩
  | cons p rest ih =>
      intro hL idx acc
      obtain ⟨sid, segment⟩ := p
      obtain ⟨c, hc⟩ := hL (sid, segment) (List.mem_cons_self _ _)
      simp only at hc
      subst hc
      have hone : evenly_space_one_segment [c] nodeshash epsilon =
          some [nodeshash c] := rfl
      rw [evenlySpaceWrite_cons, hone]
      simp only [List.length_singleton]
      by_cases h1 : idx + 1 ≤ MAX_ARRAY_SZ
      · rw [if_pos h1]
        obtain ⟨l, hok, hlen⟩ := ih (fun q hq => hL q (List.mem_cons_of_mem _ hq))
          (idx + 1) (acc ++ [(nodeshash c, sid)])
        refine ⟨l, hok, ?_⟩
        have hacc : (acc ++ [(nodeshash c, sid)]).length = acc.length + 1 := by simp
        rw [hlen, hacc, List.length_cons]
        omega
      · rw [if_neg h1, if_pos trivial]
        obtain ⟨l, hok, hlen⟩ := ih (fun q hq => hL q (List.mem_cons_of_mem _ hq))
          (idx + 1) acc
        refine ⟨l, hok, ?_⟩
        rw [hlen]
        simp only [List.length_cons]
        omega

theorem totalPoints_singleton_segs (nodeshash : Nat → ℂ) (epsilon : ℝ) :
    ∀ (L : List (Nat × List Nat)), (∀ p ∈ L, ∃ c, p.2 = [c]) →
      totalPoints L nodeshash epsilon = L.length := by
  intro L
  induction L with
  | nil => intro _; simp [totalPoints]
  | cons p rest ih =>
      intro hL
      obtain ⟨c, hc⟩ := hL p (List.mem_cons_self _ _)
      rw [totalPoints_cons, hc, ih (fun q hq => hL q (List.mem_cons_of_mem _ hq))]
      have hone : evenly_space_one_segment [c] nodeshash epsilon =
          some [nodeshash c] := rfl
      rw [hone]
      simp [Nat.add_comm]

/-- Overflow batch used to exhibit the silent-truncation behaviour: one more
single-node segment than the buffer holds. -/
def bigSegs : List (Nat × List Nat) :=
  (List.range (MAX_ARRAY_SZ + 1)).map (fun i => (i, [0]))

/-- Claim C1 counterexample: with inverted way index `{1: [7]}` and coordinate
store `{2: c}` the entry counts are equal (1 = 1) while the key sets differ,
so `filter_out_orphan_nodes` takes its fast path and returns both stores
unchanged; inverted-index key 1 (and node 1 of way 7) does not exist in the
coordinate store, contradicting the claimed postcondition on such inputs. -/
theorem c1_counterexample :
    filter_out_orphan_nodes [(7, [1])] [(1, [7])] [(2, (0 : Nat))] =
      ([(7, [1])], [(1, [7])]) ∧
    (1 : Nat) ∈ (([(7, [1])] : List (Nat × List Nat)).map Prod.snd).flatten ∧
    (1 : Nat) ∈ ([(1, [7])] : List (Nat × List Nat)).map Prod.fst ∧
    (1 : Nat) ∉ ([(2, (0 : Nat))] : List (Nat × Nat)).map Prod.fst := by
  refine ⟨rfl, by decide, by decide, by decide⟩

/-- Claim C1 (amended): the reconciliation postcondition — every node id
appearing in any way's node list and every key of the inverted way index
exists in the coordinate store — holds whenever the number of inverted-index
entries differs from the number of coordinate-store entries (the slow path);
when the counts are equal the reconciler is a no-op and the postcondition can
fail if the key sets differ despite equal counts. -/
theorem c1_filter_out_orphan_nodes_slow_path {α : Type}
    (ways invways : List (Nat × List Nat)) (nodeshash : List (Nat × α))
    (hne : invways.length ≠ nodeshash.length) :
    (∀ wp ∈ (filter_out_orphan_nodes ways invways nodeshash).1, ∀ n ∈ wp.2,
        n ∈ nodeshash.map Prod.fst) ∧
    (∀ q ∈ (filter_out_orphan_nodes ways invways nodeshash).2,
        q.1 ∈ nodeshash.map Prod.fst) := by
  simp only [filter_out_orphan_nodes, if_neg hne]
  constructor
  · intro wp hwp n hn
    simp only [List.mem_map] at hwp
    obtain ⟨wq, _, rfl⟩ := hwp
    simp only [List.mem_filter, decide_eq_true_eq] at hn
    obtain ⟨a, ha, han⟩ := hn.2
    exact List.mem_map.2 ⟨a, ha, han⟩
  · intro q hq
    rw [List.mem_filter] at hq
    exact of_decide_eq_true hq.2

/-- Witness for the amended C1 at a concrete slow-path input. -/
theorem c1_witness :
    (∀ wp ∈ (filter_out_orphan_nodes [(7, [1, 2])] [(1, [7]), (2, [7])]
        [(1, (0 : Nat))]).1, ∀ n ∈ wp.2, n ∈ [(1, (0 : Nat))].map Prod.fst) ∧
    (∀ q ∈ (filter_out_orphan_nodes [(7, [1, 2])] [(1, [7]), (2, [7])]
        [(1, (0 : Nat))]).2, q.1 ∈ [(1, (0 : Nat))].map Prod.fst) :=
  c1_filter_out_orphan_nodes_slow_path [(7, [1, 2])] [(1, [7]), (2, [7])]
    [(1, (0 : Nat))] (by decide)

/-- Claim C2 is violated by the code: a way with no crossing takes the fast
path of get_segments, which stores the segment but never registers its nodes
in the inverted segment index.  For ways = `{0: [1, 2]}` and an empty crossing
set, node 1 lies in segment 0's node list while the inverted segment index is
empty, so the claimed iff fails for fast-path segments. -/
theorem c2_fast_path_not_registered :
    get_segments [(0, [1, 2])] [] = ([(0, [1, 2])], []) ∧
    (1 : Nat) ∈ [1, 2] ∧
    lookupList (get_segments [(0, [1, 2])] []).2 1 = [] := by
  refine ⟨by decide, by decide, by decide⟩

/-- Claim C3: the segments get_segments produces are, way by way, those of
`waySegments`; for every way with a non-empty node list, concatenating its
segments' node lists with the shared boundary node counted once at each join
(each segment after the first drops its leading node, which equals the
previous segment's last node) reproduces the way's node sequence exactly; and
a way with zero crossing nodes produces exactly one segment equal to the
entire way. -/
theorem c3_segment_coverage :
    (∀ (ways : List (Nat × List Nat)) (crossings : List Nat),
        (get_segments ways crossings).1.map Prod.snd =
          (ways.map (fun wp => waySegments crossings wp.2)).flatten) ∧
    (∀ (crossings : List Nat) (nodes : List Nat), nodes ≠ [] →
        joinSegs (waySegments crossings nodes) = nodes ∧
        List.Chain' (fun a b => a.getLast? = b.head?) (waySegments crossings nodes)) ∧
    (∀ (crossings : List Nat) (nodes : List Nat), (∀ n ∈ nodes, n ∉ crossings) →
        waySegments crossings nodes = [nodes]) := by
  refine ⟨?_, ?_, ?_⟩
  · intro ways crossings
    rw [get_segments_eq]
    show (enumSegs 0 (allSegs crossings ways)).map Prod.snd = _
    rw [enumSegs_map_snd]
    rfl
  · intro crossings nodes _hne
    constructor
    · rw [waySegments]
      by_cases h : ∀ n ∈ nodes, n ∉ crossings
      · rw [if_pos h]
        simp [joinSegs]
      · rw [if_neg h, joinSegs_splitLoop]
        simp
    · rw [waySegments]
      by_cases h : ∀ n ∈ nodes, n ∉ crossings
      · rw [if_pos h]
        simp
      · rw [if_neg h]
        exact splitLoop_chain crossings nodes []
  · intro crossings nodes h
    rw [waySegments, if_pos h]

/-- Witness for C3 at concrete inputs: way [1,2,3] with crossing 2 splits into
[1,2] and [2,3] whose dedup-join is [1,2,3]; way [5,6] with no crossings stays
whole. -/
theorem c3_witness :
    (joinSegs (waySegments [2] [1, 2, 3]) = [1, 2, 3] ∧
      List.Chain' (fun a b => a.getLast? = b.head?) (waySegments [2] [1, 2, 3])) ∧
    waySegments ([] : List Nat) [5, 6] = [[5, 6]] :=
  ⟨c3_segment_coverage.2.1 [2] [1, 2, 3] (by decide),
    c3_segment_coverage.2.2 [] [5, 6] (by decide)⟩

/-- Claim C5 is violated by the code: an empty way takes get_segments' fast
path (an empty node list meets no crossing) and is emitted as an empty
segment, on which evenly_space_one_segment evaluates `segment[0]` and raises
IndexError, so evenly_space_segments is not total on the segment maps the
segment builder can produce. -/
theorem c5_empty_way_raises :
    get_segments [(0, ([] : List Nat))] [] = ([(0, [])], []) ∧
    evenly_space_segments [(0, [])] (fun _ => 0) 1 = .error "IndexError" := by
  exact ⟨by decide, rfl⟩

/-- Claim C7: a node id is in the crossing set iff its inverted-way-index
entry has length greater than one; the inverted way index built by parse_ways
gives each node an entry whose length is its total number of occurrences over
all kept ways; consequently a node referenced at least twice by a single way
(a self-loop) is a crossing. -/
theorem c7_crossing_correctness :
    (∀ (invways : List (Nat × List Nat)) (n : Nat), (invways.map Prod.fst).Nodup →
        (n ∈ get_crossings invways ↔ 1 < (lookupList invways n).length)) ∧
    (∀ (ways : List (Nat × List Nat)) (n : Nat),
        (lookupList (buildInvWays ways) n).length = totalOcc ways n) ∧
    (∀ (ways : List (Nat × List Nat)) (w n : Nat) (nodes : List Nat),
        (w, nodes) ∈ ways → 2 ≤ nodes.count n →
        n ∈ get_crossings (buildInvWays ways)) := by
  refine ⟨?_, ?_, ?_⟩
  · intro invways n h
    exact mem_get_crossings invways n h
  · intro ways n
    exact lookupList_buildInvWays ways n
  · intro ways w n nodes hmem hcount
    rw [mem_get_crossings _ _ (nodup_fst_buildInvWays ways), lookupList_buildInvWays]
    have hle : nodes.count n ≤ totalOcc ways n := by
      unfold totalOcc
      have hmm : nodes.count n ∈ ways.map (fun wp => wp.2.count n) :=
        List.mem_map.2 ⟨(w, nodes), hmem, rfl⟩
      exact List.single_le_sum (fun x _ => Nat.zero_le x) _ hmm
    omega

/-- Witness for C7 at concrete inputs, including the self-loop way [5,5]. -/
theorem c7_witness :
    (5 ∈ get_crossings [(5, [1, 2])] ↔ 1 < (lookupList [(5, [1, 2])] 5).length) ∧
    5 ∈ get_crossings (buildInvWays [(3, [5, 5])]) :=
  ⟨c7_crossing_correctness.1 [(5, [1, 2])] 5 (by decide),
    c7_crossing_correctness.2.2 [(3, [5, 5])] 3 5 [5, 5] (by decide) (by decide)⟩

/-- Claim C8: the keys of the segment map returned by get_segments are exactly
the contiguous range [0, k): ids start at 0, increase by one per produced
segment across the whole batch, with no gaps and no per-way reset. -/
theorem c8_segment_id_density (ways : List (Nat × List Nat)) (crossings : List Nat) :
    (get_segments ways crossings).1.map Prod.fst =
      List.range ((get_segments ways crossings).1.length) := by
  rw [get_segments_eq]
  show (enumSegs 0 (allSegs crossings ways)).map Prod.fst = _
  rw [enumSegs_map_fst, enumSegs_length, List.range_eq_range']

/-- Claim C9: for every segment registered by get_segments' splitting branch
(`regSegsFrom` lists exactly those, with their ids), the number of times its
id occurs in the inverted-segment-index entry of a node equals the number of
occurrences of that node in the segment's node list; in particular a node
appearing twice in one segment has that segment id listed twice. -/
theorem c9_inverted_index_multiplicity (ways : List (Nat × List Nat))
    (crossings : List Nat) (s : Nat) (seg : List Nat) (n : Nat)
    (hmem : (s, seg) ∈ regSegsFrom crossings 0 ways) :
    List.count s (lookupList (get_segments ways crossings).2 n) = seg.count n := by
  rw [get_segments_eq]
  show List.count s (lookupList (segWaysInv crossings [] 0 ways) n) = seg.count n
  rw [count_lookupList_segWaysInv,
    sum_pick_of_pairwise s seg n _ (pairwise_regSegsFrom crossings ways 0) hmem]
  simp

/-- Witness for C9: the loop way [1,2,1] with crossing 1 yields the registered
segment 0 = [1,2,1], and the inverted index entry of node 1 lists id 0 twice. -/
theorem c9_witness :
    (0, [1, 2, 1]) ∈ regSegsFrom [1] 0 [(0, [1, 2, 1])] ∧
    List.count 0 (lookupList (get_segments [(0, [1, 2, 1])] [1]).2 1) =
      List.count 1 [1, 2, 1] ∧
    List.count 1 [1, 2, 1] = 2 :=
  ⟨by decide,
    c9_inverted_index_multiplicity [(0, [1, 2, 1])] [1] 0 [1, 2, 1] 1 (by decide),
    by decide⟩

/-- Claim C10: when a hop has zero length (the node's coordinate equals the
reference point, as happens for two consecutive nodes with identical
coordinates), evenly_space_one_segment takes the pass-through branch — the
guard `d < epsilon` holds since d = 0 — so the coordinate is emitted again as
a further output point, no normalisation (division by the zero norm) is ever
attempted, and the output can contain consecutive equal points. -/
theorem c10_duplicate_coordinate_passthrough (nodeshash : Nat → ℂ) (epsilon : ℝ)
    (a b : Nat) (rest : List Nat) (he : 0 < epsilon)
    (hab : nodeshash b = nodeshash a) :
    evenlySpaceAux nodeshash epsilon (nodeshash a) (b :: rest) =
      nodeshash b :: evenlySpaceAux nodeshash epsilon (nodeshash b) rest := by
  have hd : Complex.abs (nodeshash b - nodeshash a) < epsilon := by
    rw [hab, sub_self, map_zero]
    exact he
  rw [evenlySpaceAux, if_pos hd]

/-- Witness for C10: a two-node segment whose nodes share one coordinate is
resampled to that coordinate twice. -/
theorem c10_witness :
    evenlySpaceAux (fun _ => (0 : ℂ)) 1 0 [1] = [(0 : ℂ)] := by
  have h := c10_duplicate_coordinate_passthrough (fun _ => (0 : ℂ)) 1 0 1 [] one_pos rfl
  exact h.trans rfl

/-- Claim C4 (amended): for epsilon > 0, a hop shorter than epsilon is passed
through — the emitted point is the node itself, at distance at most epsilon
from the current reference point (the previously visited true node) — and a
hop of length at least epsilon emits an interpolation run in which consecutive
points, starting from the reference point itself, are exactly epsilon apart;
but a pass-through point or a new run may be farther than epsilon from the
immediately preceding output point when that point ends an interpolation run,
because the sub-epsilon remainder of a run is dropped. -/
theorem c4_spacing (nodeshash : Nat → ℂ) (epsilon : ℝ) (prevnode : ℂ)
    (nodeid : Nat) (rest : List Nat) (he : 0 < epsilon) :
    (Complex.abs (nodeshash nodeid - prevnode) < epsilon →
      evenlySpaceAux nodeshash epsilon prevnode (nodeid :: rest) =
        nodeshash nodeid :: evenlySpaceAux nodeshash epsilon (nodeshash nodeid) rest ∧
      Complex.abs (nodeshash nodeid - prevnode) ≤ epsilon) ∧
    (epsilon ≤ Complex.abs (nodeshash nodeid - prevnode) →
      evenlySpaceAux nodeshash epsilon prevnode (nodeid :: rest) =
        synthChain ((Complex.abs (nodeshash nodeid - prevnode))⁻¹ •
              (nodeshash nodeid - prevnode)) epsilon prevnode
            ⌊Complex.abs (nodeshash nodeid - prevnode) / epsilon⌋₊ ++
          evenlySpaceAux nodeshash epsilon (nodeshash nodeid) rest ∧
      List.Chain' (fun a b => Complex.abs (b - a) = epsilon)
        (prevnode :: synthChain ((Complex.abs (nodeshash nodeid - prevnode))⁻¹ •
              (nodeshash nodeid - prevnode)) epsilon prevnode
            ⌊Complex.abs (nodeshash nodeid - prevnode) / epsilon⌋₊)) := by
  constructor
  · intro h
    exact ⟨by rw [evenlySpaceAux, if_pos h], le_of_lt h⟩
  · intro h
    have hne : nodeshash nodeid - prevnode ≠ 0 := by
      intro h0
      rw [h0, map_zero] at h
      linarith
    refine ⟨by rw [evenlySpaceAux, if_neg (not_lt.mpr h)], ?_⟩
    exact chain_synthChain _ epsilon (abs_inv_smul_self _ hne) he prevnode _

/-- Witness for the amended C4: the hop from 0 to 2 with epsilon = 1 takes the
interpolation branch and its run, starting from the reference point 0, is
chained at spacing exactly 1. -/
theorem c4_witness :
    evenlySpaceAux (fun _ => ((2 : ℝ) : ℂ)) 1 0 [0] =
      synthChain ((Complex.abs (((2 : ℝ) : ℂ) - 0))⁻¹ • (((2 : ℝ) : ℂ) - 0)) 1 0
          ⌊Complex.abs (((2 : ℝ) : ℂ) - 0) / 1⌋₊ ++
        evenlySpaceAux (fun _ => ((2 : ℝ) : ℂ)) 1 ((2 : ℝ) : ℂ) [] ∧
    List.Chain' (fun a b => Complex.abs (b - a) = 1)
      ((0 : ℂ) :: synthChain ((Complex.abs (((2 : ℝ) : ℂ) - 0))⁻¹ • (((2 : ℝ) : ℂ) - 0)) 1 0
          ⌊Complex.abs (((2 : ℝ) : ℂ) - 0) / 1⌋₊) :=
  (c4_spacing (fun _ => ((2 : ℝ) : ℂ)) 1 0 0 [] one_pos).2
    (by rw [sub_zero, Complex.abs_ofReal]; norm_num)

/-- Coordinates 0, 3/2 and 12/5 on the real axis, used to refute C4. -/
noncomputable def nh4 : Nat → ℂ := fun n =>
  if n = 0 then 0 else if n = 1 then ((3 / 2 : ℝ) : ℂ) else ((12 / 5 : ℝ) : ℂ)

/-- Claim C4 counterexample: resampling the segment [0, 1, 2] over coordinates
0, 3/2, 12/5 with epsilon = 1 outputs [0, 1, 12/5]; the final point 12/5 is a
pass-through point (its hop from the reference point 3/2 has length 9/10 < 1)
yet it lies at distance 7/5 > 1 from the immediately preceding output point 1,
because the 1/2 remainder of the first interpolation run was dropped.  This
refutes the claim that consecutive output points ending in a pass-through
point are at most epsilon apart, and that consecutive same-segment output
points are never farther than epsilon apart. -/
theorem c4_counterexample :
    evenly_space_one_segment [0, 1, 2] nh4 1 =
      some [0, (1 : ℂ), ((12 / 5 : ℝ) : ℂ)] ∧
    Complex.abs (nh4 2 - nh4 1) < 1 ∧
    (1 : ℝ) < Complex.abs (((12 / 5 : ℝ) : ℂ) - (1 : ℂ)) := by
  have h0 : nh4 0 = 0 := by simp [nh4]
  have h1 : nh4 1 = ((3 / 2 : ℝ) : ℂ) := by simp [nh4]
  have h2 : nh4 2 = ((12 / 5 : ℝ) : ℂ) := by simp [nh4]
  have habs1 : Complex.abs (nh4 1 - nh4 0) = 3 / 2 := by
    rw [h1, h0, sub_zero, Complex.abs_ofReal]
    norm_num
  have habs2 : Complex.abs (nh4 2 - nh4 1) < 1 := by
    rw [h1, h2, ← Complex.ofReal_sub, Complex.abs_ofReal, abs_lt]
    constructor <;> norm_num
  have hfloor : ⌊Complex.abs (nh4 1 - nh4 0) / 1⌋₊ = 1 := by
    rw [habs1, div_one]
    rw [Nat.floor_eq_iff (by norm_num)]
    norm_num
  have hdir : (Complex.abs (nh4 1 - nh4 0))⁻¹ • (nh4 1 - nh4 0) = 1 := by
    rw [h1, h0, sub_zero, Complex.abs_ofReal,
      abs_of_pos (by norm_num : (0 : ℝ) < 3 / 2), Complex.real_smul,
      ← Complex.ofReal_mul]
    norm_num
  have hchain : synthChain 1 1 (0 : ℂ) 1 = [(1 : ℂ)] := by
    simp [synthChain]
  refine ⟨?_, habs2, ?_⟩
  · rw [evenly_space_one_segment]
    have hstep1 : evenlySpaceAux nh4 1 (nh4 0) [1, 2] =
        synthChain ((Complex.abs (nh4 1 - nh4 0))⁻¹ • (nh4 1 - nh4 0)) 1 (nh4 0)
            ⌊Complex.abs (nh4 1 - nh4 0) / 1⌋₊ ++
          evenlySpaceAux nh4 1 (nh4 1) [2] := by
      rw [evenlySpaceAux, if_neg (by rw [habs1]; norm_num)]
    have hstep2 : evenlySpaceAux nh4 1 (nh4 1) [2] = [nh4 2] := by
      simp only [evenlySpaceAux]
      rw [if_pos habs2]
    rw [hstep1, hstep2, hdir, hfloor, h0, hchain, h2]
    rfl
  · have habs7 : |(12 / 5 - 1 : ℝ)| = 7 / 5 := by
      rw [abs_of_pos] <;> norm_num
    rw [← Complex.ofReal_one, ← Complex.ofReal_sub, Complex.abs_ofReal, habs7]
    norm_num

/-- Length projection of a successful resampling batch. -/
def okLength (r : Except String (List (ℂ × Nat))) : Option Nat :=
  match r with
  | .ok l => some l.length
  | .error _ => none

/-- Claim C6 counterexample: a batch of MAX_ARRAY_SZ + 1 single-node segments
produces MAX_ARRAY_SZ + 1 points in total, one more than the buffer holds,
yet evenly_space_segments returns successfully with only MAX_ARRAY_SZ points:
the overflowing single-row write broadcasts into the empty clipped slice as a
silent no-op instead of raising, so the output is silently truncated,
refuting the claim that exceeding the bound always fails with an error. -/
theorem c6_counterexample :
    okLength (evenly_space_segments bigSegs (fun _ => 0) 1) = some MAX_ARRAY_SZ ∧
    totalPoints bigSegs (fun _ => 0) 1 = MAX_ARRAY_SZ + 1 := by
  have hsingle : ∀ p ∈ bigSegs, ∃ c, p.2 = [c] := by
    intro p hp
    rw [bigSegs, List.mem_map] at hp
    obtain ⟨i, _, rfl⟩ := hp
    exact ⟨0, rfl⟩
  have hbig : bigSegs.length = MAX_ARRAY_SZ + 1 := by
    rw [bigSegs]
    simp
  constructor
  · obtain ⟨l, hok, hlen⟩ :=
      evenlySpaceWrite_singleton_segs (fun _ => 0) 1 bigSegs hsingle 0 []
    rw [evenly_space_segments, hok, okLength]
    rw [hlen, hbig]
    have hmin : min (MAX_ARRAY_SZ + 1) (MAX_ARRAY_SZ - 0) = MAX_ARRAY_SZ := by omega
    simp [hmin]
  · rw [totalPoints_singleton_segs _ _ bigSegs hsingle, hbig]

/-- Claim C6 (amended): when evenly_space_segments returns successfully, its
output holds min(total points, MAX_ARRAY_SZ) rows — a batch whose total
exceeds the capacity is silently truncated to the first MAX_ARRAY_SZ points
whenever every write past capacity is a single-point segment (any multi-point
overflowing write instead raises a numpy broadcast error), so overflow is
not reliably surfaced as an error. -/
theorem c6_capacity_truncation (segments : List (Nat × List Nat))
    (nodeshash : Nat → ℂ) (epsilon : ℝ) (l : List (ℂ × Nat))
    (hok : evenly_space_segments segments nodeshash epsilon = .ok l) :
    l.length = min (totalPoints segments nodeshash epsilon) MAX_ARRAY_SZ := by
  rw [evenly_space_segments] at hok
  have := evenlySpaceWrite_ok_length nodeshash epsilon segments 0 [] l (by simp) hok
  simpa using this

/-- Witness for the amended C6 at a small in-capacity batch. -/
theorem c6_witness :
    ([((0 : ℂ), (0 : Nat))]).length =
      min (totalPoints [(0, [5])] (fun _ => 0) 1) MAX_ARRAY_SZ :=
  c6_capacity_truncation [(0, [5])] (fun _ => 0) 1 [((0 : ℂ), 0)] rfl
